import Mathlib

/-!
Shallow embedding of the CPR document ingestion and retrieval pipeline
(`embedding_system.py`, class `CPREmbeddingSystem`), together with theorems
settling the specification's claims about it.

Python strings are modelled as `List Char` where character offsets matter and
as `String` where only concatenation and length matter; machine floats from the
provider and the vector store are modelled as `ℚ`; a call that can raise is
modelled as an `Option`-valued oracle (`none` = a raised exception caught by
the corresponding `except` branch).
-/

set_option maxRecDepth 100000

namespace CPR

/-- `self.chunk_size` from `CPREmbeddingSystem.__init__`: characters per chunk. -/
def chunk_size : Nat := 1000

/-- `self.chunk_overlap` from `CPREmbeddingSystem.__init__`: overlap between chunks. -/
def chunk_overlap : Nat := 200

/-- `self.batch_size` from `CPREmbeddingSystem.__init__`: chunks per embedding call. -/
def batch_size : Nat := 20

/-- ASCII whitespace recognised by Python `str.strip()` (the corpus is ASCII
markdown; unicode-only whitespace is not modelled). -/
def pyIsSpace (c : Char) : Bool :=
  c = ' ' || c = '\t' || c = '\n' || c = '\r' || c = '\x0b' || c = '\x0c'

/-- Python `s.strip()`: drop whitespace from both ends. -/
def pyStrip (l : List Char) : List Char :=
  ((l.dropWhile pyIsSpace).reverse.dropWhile pyIsSpace).reverse

/-- Python `text.rfind('.', start, stop)`: the largest index `i` with
`start ≤ i < stop`, `i < len(text)` and `text[i] = '.'`; `none` when no such
index exists (Python returns `-1`, which the caller's `>` test rejects). -/
def rfindDot (text : List Char) (start stop : Nat) : Option Nat :=
  ((List.range text.length).filter fun i =>
    decide (start ≤ i ∧ i < stop ∧ text.getD i ' ' = '.')).getLast?

/-- One chunk dict produced by `chunk_text`; `stop` is the dict's `"end"` key
(`end` is a Lean keyword). -/
structure Chunk where
  text : List Char
  filename : String
  start : Nat
  stop : Nat
  deriving DecidableEq, Repr

/-- The cut position `chunk_text` chooses for the window starting at `start`:
tentatively `start + chunk_size`; when that lands strictly inside the text,
snap to just after the last `'.'` of the window provided it lies beyond 70% of
the window (`self.chunk_size * 0.7` evaluates to exactly `700.0` in the
source's float arithmetic, so the test is `sentence_end > start + 700`). -/
def nextEnd (text : List Char) (start : Nat) : Nat :=
  let e0 := start + chunk_size
  if e0 < text.length then
    match rfindDot text start e0 with
    | some sentence_end => if start + 700 < sentence_end then sentence_end + 1 else e0
    | none => e0
  else e0

/-- The `while` loop of `chunk_text`, with explicit fuel: every iteration
strictly increases `start` (see the termination theorem below), so
`text.length + 1` steps always suffice. -/
def chunkLoop (text : List Char) (filename : String) : Nat → Nat → List Chunk
  | 0, _ => []
  | fuel + 1, start =>
    if start < text.length then
      let e := nextEnd text start
      let piece := pyStrip ((text.drop start).take (e - start))
      let rest := chunkLoop text filename fuel (e - chunk_overlap)
      if piece.isEmpty then rest
      else { text := piece, filename := filename, start := start, stop := e } :: rest
    else []

/-- `CPREmbeddingSystem.chunk_text`. -/
def chunk_text (text : List Char) (filename : String) : List Chunk :=
  chunkLoop text filename (text.length + 1) 0

/-- The `contents` list built inside `batch_embed`: one request item per text;
item `i` carries `titles[i]` when `titles` is non-empty and `i < len(titles)`
(else `""`), and `title or None` turns the empty title into an absent one. -/
def buildContents {α : Type} (titles : List String) : Nat → List α → List (α × Option String)
  | _, [] => []
  | i, t :: rest =>
    let title := if titles ≠ [] ∧ i < titles.length then titles.getD i "" else ""
    (t, if title = "" then none else some title) :: buildContents titles (i + 1) rest

/-- `CPREmbeddingSystem.batch_embed`. `provider` stands for the single
`client.models.embed_content` call: `some vs` is a successful response whose
`embeddings` hold the vectors `vs`, returned verbatim; `none` is a raised
provider error, caught by the `except` branch which returns `[]` for the whole
batch. -/
def batch_embed {α : Type} (provider : List (α × Option String) → Option (List (List ℚ)))
    (texts : List α) (titles : Option (List String)) : List (List ℚ) :=
  if texts.isEmpty then []
  else
    match provider (buildContents (titles.getD []) 0 texts) with
    | some embs => embs
    | none => []

/-- One record handed to the vector store by `process_cpr_documents`
(id, embedding, document text and the metadata dict's four fields). -/
structure StoredRecord where
  id : String
  embedding : List ℚ
  text : List Char
  filename : String
  start : Nat
  stop : Nat
  chunk_index : Nat
  deriving DecidableEq

/-- The batch loop of `process_cpr_documents`: slice `chunks[i:i+batch_size]`,
embed the batch with the filenames as titles, and keep one record per
`(chunk, embedding)` pair of `zip(batch_chunks, batch_embeddings)` whose
embedding is non-empty, with id `"{stem}_{i+j}"`. Fuel: every step consumes at
least one chunk, so `chunks.length` steps suffice. -/
def processBatches (provider : List (List Char × Option String) → Option (List (List ℚ)))
    (stem : String) : Nat → Nat → List Chunk → List StoredRecord
  | 0, _, _ => []
  | fuel + 1, i, chunks =>
    if chunks.isEmpty then []
    else
      let batch := chunks.take batch_size
      let embs := batch_embed provider (batch.map Chunk.text) (some (batch.map Chunk.filename))
      let recs := ((batch.zip embs).enum).filterMap fun je =>
        if je.2.2.isEmpty then none
        else some { id := stem ++ "_" ++ toString (i + je.1), embedding := je.2.2,
                    text := je.2.1.text, filename := je.2.1.filename,
                    start := je.2.1.start, stop := je.2.1.stop, chunk_index := i + je.1 }
      recs ++ processBatches provider stem fuel (i + batch_size) (chunks.drop batch_size)

/-- One corpus file as `process_cpr_documents` sees it: filename stem, full
name, and the outcome of reading it (`none` = the read raised, caught by the
per-document `except`). -/
structure DocFile where
  stem : String
  name : String
  content : Option String

/-- The records `process_cpr_documents` builds for one document: nothing on a
read error, nothing for a file empty after trimming, else the batch loop's
output over `chunk_text`'s chunks. -/
def docRecords (provider : List (List Char × Option String) → Option (List (List ℚ)))
    (doc : DocFile) : List StoredRecord :=
  match doc.content with
  | none => []
  | some content =>
    if (pyStrip content.data).isEmpty then []
    else
      let chunks := chunk_text content.data doc.name
      processBatches provider doc.stem chunks.length 0 chunks

/-- The aggregate counters `process_cpr_documents` reports:
`(processed_files, total_chunks)`. A document counts as processed only when it
produced at least one embedded record. -/
def processCorpus (provider : List (List Char × Option String) → Option (List (List ℚ))) :
    List DocFile → Nat × Nat
  | [] => (0, 0)
  | d :: ds =>
    let recs := docRecords provider d
    let rest := processCorpus provider ds
    if recs.isEmpty then rest else (rest.1 + 1, rest.2 + recs.length)

/-- Modelled from the spec: the Vector Store's `upsert` operation (§4.3,
"idempotent add/overwrite by id"). The chromadb collection behind
`collection.add` is not part of this repository's sources; the store is an
id-keyed record list and `upsert` overwrites the record whose id matches, else
appends. -/
def upsertRecord (store : List StoredRecord) (r : StoredRecord) : List StoredRecord :=
  if store.any fun p => p.id == r.id then
    store.map fun p => if p.id == r.id then r else p
  else store ++ [r]

/-- Modelled from the spec: handing a list of records to the store in one call
(spec §4.4 step 5). -/
def upsertAll (store : List StoredRecord) (recs : List StoredRecord) : List StoredRecord :=
  recs.foldl upsertRecord store

/-- The store effect of one `process_cpr_documents` run: each document's
records are handed over in one call, documents in corpus order. -/
def processCorpusStore (provider : List (List Char × Option String) → Option (List (List ℚ)))
    (docs : List DocFile) (store : List StoredRecord) : List StoredRecord :=
  docs.foldl (fun s d => upsertAll s (docRecords provider d)) store

/-- The metadata dict the store returns with each hit. -/
structure SearchMeta where
  filename : String
  start : Nat
  stop : Nat
  chunk_index : Nat
  deriving DecidableEq, Repr

/-- One formatted result of `search_documents`. -/
structure SearchResult where
  text : String
  filename : String
  relevance_score : ℚ
  metadata : SearchMeta
  deriving DecidableEq, Repr

/-- The store's reply to `collection.query` for the single query embedding:
the parallel lists `documents[0]`, `metadatas[0]`, `distances[0]`. -/
structure QueryResponse where
  documents : List String
  metadatas : List SearchMeta
  distances : List ℚ
  deriving DecidableEq, Repr

/-- `CPREmbeddingSystem.search_documents`. `initialized` and `hasCollection`
model `self.initialized` and `self.collection`; `query_embedding` is
`get_embedding`'s value for the query (`[]` on failure); `resp` is the store's
reply (`none` = `collection.query` raised, caught by the `except` branch). -/
def search_documents (initialized hasCollection : Bool) (query_embedding : List ℚ)
    (resp : Option QueryResponse) : List SearchResult :=
  if !initialized || !hasCollection then []
  else if query_embedding.isEmpty then []
  else
    match resp with
    | none => []
    | some r =>
      if r.documents.isEmpty then []
      else (r.documents.zip (r.metadatas.zip r.distances)).map fun x =>
        { text := x.1, filename := x.2.1.filename,
          relevance_score := 1 - x.2.2, metadata := x.2.1 }

/-- The f-string `f"From {filename}:\n{text}\n"` appended for one kept result. -/
def contextPart (r : SearchResult) : String :=
  "From " ++ r.filename ++ ":\n" ++ r.text ++ "\n"

/-- The packing loop of `get_document_context`: keep results in order while
`current_length + len(text)` stays within `max_chars`, counting only the raw
chunk text lengths, and stop at the first result that would overflow. -/
def contextTake : List SearchResult → Nat → Nat → List SearchResult
  | [], _, _ => []
  | r :: rs, current_length, max_chars =>
    if max_chars < current_length + r.text.length then []
    else r :: contextTake rs (current_length + r.text.length) max_chars

/-- `CPREmbeddingSystem.get_document_context` (the store reply `resp` plays the
role of the internal `top_k=3` search). -/
def get_document_context (initialized hasCollection : Bool) (query_embedding : List ℚ)
    (resp : Option QueryResponse) (max_chars : Nat) : String :=
  let results := search_documents initialized hasCollection query_embedding resp
  if results.isEmpty then ""
  else String.intercalate "\n" ((contextTake results 0 max_chars).map contextPart)

/-- The ids currently held by the modelled store, in store order. -/
def storeIds (store : List StoredRecord) : List String :=
  store.map StoredRecord.id

/-! ### Lemmas about the chunker -/

/-- The chosen cut always lies at least `702` characters past `start`: a hard
cut adds `chunk_size = 1000`, and a sentence snap lands after a period that is
itself beyond `start + 700`. -/
lemma nextEnd_ge (text : List Char) (start : Nat) : start + 702 ≤ nextEnd text start := by
  unfold nextEnd
  simp only [chunk_size]
  split
  · split
    · split <;> omega
    · omega
  · omega

lemma chunkLoop_nil (text : List Char) (fn : String) (fuel start : Nat)
    (h : text.length ≤ start) : chunkLoop text fn fuel start = [] := by
  cases fuel with
  | zero => rfl
  | succ n => simp [chunkLoop, Nat.not_lt.mpr h]

lemma chunkLoop_mem (text : List Char) (fn : String) :
    ∀ fuel start c, c ∈ chunkLoop text fn fuel start →
      start ≤ c.start ∧ c.start < c.stop ∧ c.start < text.length := by
  intro fuel
  induction fuel with
  | zero => intro start c hc; simp [chunkLoop] at hc
  | succ n ih =>
    intro start c hc
    simp only [chunkLoop] at hc
    by_cases hs : start < text.length
    · rw [if_pos hs] at hc
      have hse := nextEnd_ge text start
      by_cases hp : (pyStrip ((text.drop start).take (nextEnd text start - start))).isEmpty
      · rw [if_pos hp] at hc
        have := ih _ _ hc
        have h2 := this.1
        refine ⟨?_, this.2.1, this.2.2⟩
        simp only [chunk_overlap] at h2
        omega
      · rw [if_neg hp] at hc
        rcases List.mem_cons.mp hc with h | h
        · subst h
          exact ⟨Nat.le_refl _, by simpa using Nat.lt_of_lt_of_le (by omega) hse, hs⟩
        · have := ih _ _ h
          have h2 := this.1
          refine ⟨?_, this.2.1, this.2.2⟩
          simp only [chunk_overlap] at h2
          omega
    · rw [if_neg hs] at hc
      simp at hc

lemma chunkLoop_pairwise (text : List Char) (fn : String) :
    ∀ fuel start, (chunkLoop text fn fuel start).Pairwise fun a b => a.start < b.start := by
  intro fuel
  induction fuel with
  | zero => intro start; simp [chunkLoop]
  | succ n ih =>
    intro start
    simp only [chunkLoop]
    by_cases hs : start < text.length
    · rw [if_pos hs]
      have hse := nextEnd_ge text start
      have hrest : ∀ b ∈ chunkLoop text fn n (nextEnd text start - chunk_overlap),
          start < b.start := by
        intro b hb
        have := (chunkLoop_mem text fn n _ b hb).1
        simp only [chunk_overlap] at this
        omega
      by_cases hp : (pyStrip ((text.drop start).take (nextEnd text start - start))).isEmpty
      · rw [if_pos hp]; exact ih _
      · rw [if_neg hp]
        exact List.Pairwise.cons hrest (ih _)
    · rw [if_neg hs]
      simp

/-- One-step unfolding of the loop, definitional for structural recursion. -/
lemma chunkLoop_succ (text : List Char) (fn : String) (fuel start : Nat) :
    chunkLoop text fn (fuel + 1) start =
      if start < text.length then
        (if (pyStrip ((text.drop start).take (nextEnd text start - start))).isEmpty then
          chunkLoop text fn fuel (nextEnd text start - chunk_overlap)
        else
          { text := pyStrip ((text.drop start).take (nextEnd text start - start)),
            filename := fn, start := start, stop := nextEnd text start } ::
            chunkLoop text fn fuel (nextEnd text start - chunk_overlap))
      else [] := rfl

lemma chunkLoop_stable (text : List Char) (fn : String) :
    ∀ fuel start, text.length - start ≤ fuel →
      chunkLoop text fn (fuel + 1) start = chunkLoop text fn fuel start := by
  intro fuel
  induction fuel with
  | zero =>
    intro start h
    have hle : text.length ≤ start := by omega
    rw [chunkLoop_nil text fn _ _ hle, chunkLoop_nil text fn _ _ hle]
  | succ n ih =>
    intro start h
    by_cases hs : start < text.length
    · have hse := nextEnd_ge text start
      have hrec := ih (nextEnd text start - chunk_overlap)
        (by simp only [chunk_overlap]; omega)
      conv_lhs => rw [chunkLoop_succ]
      conv_rhs => rw [chunkLoop_succ]
      rw [if_pos hs, if_pos hs, hrec]
    · have hle : text.length ≤ start := by omega
      rw [chunkLoop_nil text fn _ _ hle, chunkLoop_nil text fn _ _ hle]

lemma chunkLoop_canon (text : List Char) (fn : String) :
    ∀ fuel start, text.length - start ≤ fuel →
      chunkLoop text fn fuel start = chunkLoop text fn (text.length - start) start := by
  intro fuel
  induction fuel with
  | zero => intro start h; rw [Nat.le_zero.mp h]
  | succ n ih =>
    intro start h
    by_cases hf : text.length - start ≤ n
    · rw [chunkLoop_stable text fn n start hf, ih start hf]
    · have : text.length - start = n + 1 := by omega
      rw [this]

/-! ### Claim theorems about the chunker -/

/-- C2 (counterexample): a document of 801 identical non-whitespace characters
is shorter than `chunk_size` and non-empty after trimming, yet `chunk_text`
yields two chunks, not one: after the first chunk the loop resumes at offset
`800 < 801`. -/
theorem C2_counterexample :
    (List.replicate 801 'a').length < chunk_size ∧
    pyStrip (List.replicate 801 'a') ≠ [] ∧
    (chunk_text (List.replicate 801 'a') "f").length = 2 := by
  refine ⟨by decide, by decide, by decide⟩

/-- C2 (amended): a document whose length is at most
`chunk_size - chunk_overlap` (800) and which is non-empty after trimming yields
exactly one chunk, whose text is the trimmed document (and whose recorded end
is the tentative cut `chunk_size`). -/
theorem C2_single_chunk (text : List Char) (fn : String)
    (h₁ : text.length ≤ chunk_size - chunk_overlap) (h₂ : pyStrip text ≠ []) :
    chunk_text text fn = [{ text := pyStrip text, filename := fn, start := 0,
                            stop := chunk_size }] := by
  have hlen : 0 < text.length := by
    cases text with
    | nil => simp [pyStrip] at h₂
    | cons c cs => simp
  simp only [chunk_size, chunk_overlap] at h₁
  have hend : nextEnd text 0 = chunk_size := by
    unfold nextEnd
    simp only [chunk_size, Nat.zero_add]
    rw [if_neg (by omega)]
  unfold chunk_text
  simp only [chunkLoop]
  rw [if_pos hlen, hend]
  have hslice : (text.drop 0).take (chunk_size - 0) = text := by
    simp only [List.drop_zero, Nat.sub_zero]
    exact List.take_of_length_le (by simp only [chunk_size]; omega)
  rw [hslice]
  rw [if_neg (by simpa [List.isEmpty_iff] using h₂)]
  rw [chunkLoop_nil text fn _ _ (by simp only [chunk_size, chunk_overlap]; omega)]

/-- C2 (witness): a concrete short document yields its single trimmed chunk. -/
theorem C2_witness :
    chunk_text " hi ".data "f" =
      [{ text := pyStrip " hi ".data, filename := "f", start := 0, stop := chunk_size }] :=
  C2_single_chunk " hi ".data "f" (by decide) (by decide)

/-- C3 (counterexample): on the one-character document `"a"` the single chunk
is recorded with `end = start + chunk_size = 1000`, which exceeds the document
length 1, so `end ≤ len(text)` fails. -/
theorem C3_counterexample :
    ¬ (∀ c ∈ chunk_text ['a'] "f", c.stop ≤ (['a'] : List Char).length) := by
  decide

/-- C3 (amended): every chunk produced by `chunk_text` satisfies
`start < end` and `start < len(text)`, and the chunks appear in strictly
increasing start-offset order; the recorded `end`, however, is the tentative
cut position and may exceed `len(text)` on the final chunk. -/
theorem C3_chunk_invariants (text : List Char) (fn : String) :
    (∀ c ∈ chunk_text text fn, c.start < c.stop ∧ c.start < text.length) ∧
    (chunk_text text fn).Pairwise fun a b => a.start < b.start := by
  constructor
  · intro c hc
    have := chunkLoop_mem text fn _ _ _ hc
    exact ⟨this.2.1, this.2.2⟩
  · exact chunkLoop_pairwise text fn _ _

/-- C3 (witness): the invariants instantiated on a concrete chunk. -/
theorem C3_witness :
    ({ text := ['a'], filename := "f", start := 0, stop := 1000 } : Chunk) ∈
        chunk_text ['a'] "f" ∧
    ((0 : Nat) < 1000 ∧ (0 : Nat) < (['a'] : List Char).length) :=
  ⟨by decide, (C3_chunk_invariants ['a'] "f").1
    { text := ['a'], filename := "f", start := 0, stop := 1000 } (by decide)⟩

/-- C8: the chunking loop makes strictly positive progress — the next start
`end - chunk_overlap` always exceeds the current start — and consequently the
loop's result is already stable at any fuel of at least `len(text)` steps:
`chunk_text` terminates on every finite input (it is a total function here,
mirroring a loop that can run at most `len(text)` iterations). -/
theorem C8_termination (text : List Char) (fn : String) :
    (∀ start : Nat, start < nextEnd text start - chunk_overlap) ∧
    (∀ fuel, text.length ≤ fuel → chunkLoop text fn fuel 0 = chunk_text text fn) := by
  constructor
  · intro start
    have := nextEnd_ge text start
    simp only [chunk_overlap]
    omega
  · intro fuel h
    unfold chunk_text
    rw [chunkLoop_canon text fn fuel 0 (by omega),
        chunkLoop_canon text fn (text.length + 1) 0 (by omega)]

/-- C8 (witness): progress and fuel-stability at a concrete input. -/
theorem C8_witness :
    ((0 : Nat) < nextEnd ['a'] 0 - chunk_overlap) ∧
    chunkLoop ['a'] "f" 5 0 = chunk_text ['a'] "f" :=
  ⟨(C8_termination ['a'] "f").1 0, (C8_termination ['a'] "f").2 5 (by decide)⟩

/-! ### Lemmas about the retriever -/

/-- The packing loop's running total stays within the budget: only raw text
lengths are counted, and a result is kept only while the total fits. -/
lemma contextTake_sum :
    ∀ (rs : List SearchResult) (cur mc : Nat), cur ≤ mc →
      cur + (((contextTake rs cur mc).map fun r => r.text.length).sum) ≤ mc := by
  intro rs
  induction rs with
  | nil => intro cur mc h; simpa [contextTake]
  | cons r rest ih =>
    intro cur mc h
    simp only [contextTake]
    split
    · simpa
    · rename_i hle
      simp only [List.map_cons, List.sum_cons]
      have := ih (cur + r.text.length) mc (by omega)
      omega

/-- The packing loop keeps an initial segment of the results: it never skips
ahead to a smaller later result. -/
lemma contextTake_isInitial :
    ∀ (rs : List SearchResult) (cur mc : Nat), ∃ k, contextTake rs cur mc = rs.take k := by
  intro rs
  induction rs with
  | nil => intro cur mc; exact ⟨0, rfl⟩
  | cons r rest ih =>
    intro cur mc
    simp only [contextTake]
    split
    · exact ⟨0, rfl⟩
    · obtain ⟨k, hk⟩ := ih (cur + r.text.length) mc
      exact ⟨k + 1, by simp [hk]⟩

/-- `search_documents` returns `[]` in each fail-closed situation. -/
lemma search_documents_empty (initialized hasCollection : Bool) (qe : List ℚ)
    (resp : Option QueryResponse)
    (h : initialized = false ∨ hasCollection = false ∨ qe = [] ∨ resp = none ∨
      ∃ q, resp = some q ∧ q.documents = []) :
    search_documents initialized hasCollection qe resp = [] := by
  unfold search_documents
  rcases h with h | h | h | h | ⟨q, hq, hdoc⟩
  · simp [h]
  · simp [h]
  · subst h
    split
    · rfl
    · simp
  · subst h
    split
    · rfl
    · split
      · rfl
      · rfl
  · subst hq
    split
    · rfl
    · split
      · rfl
      · simp [hdoc]

/-- `get_document_context` returns `""` whenever the inner search is empty. -/
lemma get_document_context_of_empty (initialized hasCollection : Bool) (qe : List ℚ)
    (resp : Option QueryResponse) (mc : Nat)
    (h : search_documents initialized hasCollection qe resp = []) :
    get_document_context initialized hasCollection qe resp mc = "" := by
  unfold get_document_context
  rw [h]
  rfl

/-! ### Claim theorems about the retriever -/

/-- C1 (counterexample): with one matching 50-character chunk and
`max_chars = 50` the chunk is kept (the check counts only the raw text length),
but the returned bundle carries the `"From a:\n"` prefix and trailing newline,
so its length is 59 characters — the returned context string exceeds
`max_chars`. -/
theorem C1_counterexample :
    50 < (get_document_context true true [1]
      (some { documents := [String.mk (List.replicate 50 'a')],
              metadatas := [{ filename := "a", start := 0, stop := 50, chunk_index := 0 }],
              distances := [0] }) 50).length := by
  decide

/-- C1 (amended): the budget check of `get_document_context` counts only the
raw chunk text lengths — the cumulative raw text length of the kept results
never exceeds `max_chars`, the kept results are an initial segment of the
search results (iteration stops at the first overflow), and when the first
result alone overflows the bundle is `""`; but the returned string itself may
exceed `max_chars`, because the `"From {filename}:\n"` prefixes and the
joining newlines are not counted against the budget. -/
theorem C1_context_budget (initialized hasCollection : Bool) (qe : List ℚ)
    (resp : Option QueryResponse) (mc : Nat) :
    (((contextTake (search_documents initialized hasCollection qe resp) 0 mc).map
        fun r => r.text.length).sum ≤ mc) ∧
    (∃ k, contextTake (search_documents initialized hasCollection qe resp) 0 mc =
      (search_documents initialized hasCollection qe resp).take k) ∧
    (∀ r rs, search_documents initialized hasCollection qe resp = r :: rs →
      mc < r.text.length →
      get_document_context initialized hasCollection qe resp mc = "") := by
  refine ⟨?_, contextTake_isInitial _ 0 mc, ?_⟩
  · have := contextTake_sum (search_documents initialized hasCollection qe resp) 0 mc
      (Nat.zero_le mc)
    omega
  · intro r rs hres hover
    unfold get_document_context
    rw [hres]
    have htake : contextTake (r :: rs) 0 mc = [] := by
      simp only [contextTake]
      rw [if_pos (by omega)]
    show (if (r :: rs).isEmpty = true then ""
      else "\n".intercalate (List.map contextPart (contextTake (r :: rs) 0 mc))) = ""
    rw [htake]
    rfl

/-- C1 (witness): with a single 80-character result and `max_chars = 50` the
budget facts hold and the bundle is empty. -/
theorem C1_witness :
    (((contextTake (search_documents true true [1]
        (some { documents := [String.mk (List.replicate 80 'a')],
                metadatas := [{ filename := "a", start := 0, stop := 80, chunk_index := 0 }],
                distances := [0] })) 0 50).map fun r => r.text.length).sum ≤ 50) ∧
    get_document_context true true [1]
      (some { documents := [String.mk (List.replicate 80 'a')],
              metadatas := [{ filename := "a", start := 0, stop := 80, chunk_index := 0 }],
              distances := [0] }) 50 = "" :=
  ⟨(C1_context_budget true true [1] _ 50).1,
    (C1_context_budget true true [1] _ 50).2.2
      { text := String.mk (List.replicate 80 'a'), filename := "a", relevance_score := 1 - 0,
        metadata := { filename := "a", start := 0, stop := 80, chunk_index := 0 } }
      [] rfl (by decide)⟩

/-- C6 (counterexample): when the store reports a distance of `2` (chromadb's
default metric, squared L2, is not bounded by 1) the returned relevance score
is `1 - 2 = -1`, outside `[0, 1]`. -/
theorem C6_counterexample :
    ((search_documents true true [1]
        (some { documents := ["t"],
                metadatas := [{ filename := "f", start := 0, stop := 1, chunk_index := 0 }],
                distances := [2] })).map SearchResult.relevance_score = [-1]) ∧
    ¬ ((0 : ℚ) ≤ -1) := by
  constructor
  · simp [search_documents]
    norm_num
  · norm_num

/-- C6 (amended): every result of `search_documents` carries
`relevance_score = 1 - d` for some store-reported distance `d`, and this score
lies in `[0, 1]` when `d` does; for distances outside `[0, 1]` (which the
store's native metric can produce) the score leaves `[0, 1]`. -/
theorem C6_relevance_score (qe : List ℚ) (resp : QueryResponse) (r : SearchResult)
    (h : r ∈ search_documents true true qe (some resp)) :
    ∃ d ∈ resp.distances, r.relevance_score = 1 - d ∧
      (0 ≤ d → d ≤ 1 → 0 ≤ r.relevance_score ∧ r.relevance_score ≤ 1) := by
  by_cases hq : qe.isEmpty
  · simp [search_documents, hq] at h
  · by_cases hd : resp.documents.isEmpty
    · simp [search_documents, hq, hd] at h
    · simp only [search_documents, Bool.not_true, Bool.or_self, Bool.false_eq_true,
        if_false, hq, hd, if_neg] at h
      rcases List.mem_map.mp h with ⟨x, hx, hr⟩
      refine ⟨x.2.2, ?_, ?_, ?_⟩
      · have h2 := (List.of_mem_zip hx).2
        exact (List.of_mem_zip h2).2
      · rw [← hr]
      · intro h0 h1
        rw [← hr]
        constructor <;> simp <;> linarith

/-- C6 (witness): at a store distance of `1/2` the score is `1 - 1/2 ∈ [0,1]`. -/
theorem C6_witness :
    ∃ d ∈ (QueryResponse.mk ["t"] [{ filename := "f", start := 0, stop := 1, chunk_index := 0 }]
        [1/2]).distances,
      (SearchResult.mk "t" "f" (1 - 1/2)
        { filename := "f", start := 0, stop := 1, chunk_index := 0 }).relevance_score = 1 - d ∧
      (0 ≤ d → d ≤ 1 →
        0 ≤ (SearchResult.mk "t" "f" (1 - 1/2)
              { filename := "f", start := 0, stop := 1, chunk_index := 0 }).relevance_score ∧
        (SearchResult.mk "t" "f" (1 - 1/2)
              { filename := "f", start := 0, stop := 1, chunk_index := 0 }).relevance_score ≤ 1) :=
  C6_relevance_score [1] _ _ (by simp [search_documents])

/-- C7: `search_documents` returns `[]` when the system is uninitialized or has
no collection, when the query embedding failed (empty), when the store query
raised, and when the store holds no records (empty reply); in each situation
`get_document_context` returns `""`. Both are total functions here: every
raising call site sits behind a caught-exception branch, so no exception
reaches the caller. -/
theorem C7_fails_closed (initialized hasCollection : Bool) (qe : List ℚ)
    (resp : Option QueryResponse) (mc : Nat)
    (h : initialized = false ∨ hasCollection = false ∨ qe = [] ∨ resp = none ∨
      ∃ q, resp = some q ∧ q.documents = []) :
    search_documents initialized hasCollection qe resp = [] ∧
    get_document_context initialized hasCollection qe resp mc = "" := by
  have hs := search_documents_empty initialized hasCollection qe resp h
  exact ⟨hs, get_document_context_of_empty initialized hasCollection qe resp mc hs⟩

/-- C7 (witness): the uninitialized case at concrete inputs. -/
theorem C7_witness :
    search_documents false true [1]
        (some { documents := ["t"],
                metadatas := [{ filename := "f", start := 0, stop := 1, chunk_index := 0 }],
                distances := [0] }) = [] ∧
    get_document_context false true [1]
      (some { documents := ["t"],
              metadatas := [{ filename := "f", start := 0, stop := 1, chunk_index := 0 }],
              distances := [0] }) 10 = "" :=
  C7_fails_closed false true [1] _ 10 (Or.inl rfl)

/-! ### Lemmas about the embedding client -/

lemma buildContents_length {α : Type} (ts : List String) :
    ∀ (l : List α) (i0 : Nat), (buildContents ts i0 l).length = l.length := by
  intro l
  induction l with
  | nil => intro i0; rfl
  | cons t rest ih => intro i0; simp [buildContents, ih]

lemma buildContents_get? {α : Type} (ts : List String) :
    ∀ (l : List α) (i0 i : Nat),
      (buildContents ts i0 l).get? i = (l.get? i).map fun t =>
        (t, if i0 + i < ts.length ∧ ts.getD (i0 + i) "" ≠ ""
            then some (ts.getD (i0 + i) "") else none) := by
  intro l
  induction l with
  | nil => intro i0 i; simp [buildContents]
  | cons t rest ih =>
    intro i0 i
    cases i with
    | zero =>
      by_cases h1 : i0 < ts.length
      · have hne : ts ≠ [] := by
          intro he
          rw [he] at h1
          simp at h1
        by_cases h2 : ts.getD i0 "" = ""
        · simp [buildContents, hne, h1, h2]
        · simp [buildContents, hne, h1, h2]
      · have hne2 : ¬(ts ≠ [] ∧ i0 < ts.length) := fun hc => h1 hc.2
        simp [buildContents, h1, hne2]
    | succ n =>
      simp only [buildContents, List.get?_cons_succ]
      rw [ih (i0 + 1) n]
      have harith : i0 + 1 + n = i0 + (n + 1) := by omega
      rw [harith]

/-! ### Claim theorems about the embedding client -/

/-- C5 (counterexample): when the provider call raises on a non-empty batch,
`batch_embed` returns `[]` — a sequence of length 0, not one of the same length
as the input with empty vectors at the failed positions. -/
theorem C5_counterexample :
    (batch_embed (fun _ : List (String × Option String) => (none : Option (List (List ℚ))))
      ["a"] none).length ≠ (["a"] : List String).length := by
  decide

/-- C5 (amended): `batch_embed []` returns `[]`; on a successful provider call
the provider's vector list is returned verbatim (so it is positionally aligned
and of the input's length exactly when the provider answers one vector per
item); on any provider error the whole call returns the empty sequence,
whatever the input length — there is no per-position empty-vector marking. -/
theorem C5_batch_embed (p : List (String × Option String) → Option (List (List ℚ)))
    (titles : Option (List String)) :
    (batch_embed p ([] : List String) titles = []) ∧
    (∀ texts embs, texts ≠ [] → p (buildContents (titles.getD []) 0 texts) = some embs →
      batch_embed p texts titles = embs) ∧
    (∀ texts, p (buildContents (titles.getD []) 0 texts) = none →
      batch_embed p texts titles = []) := by
  refine ⟨rfl, ?_, ?_⟩
  · intro texts embs hne hp
    unfold batch_embed
    rw [if_neg (by simpa [List.isEmpty_iff] using hne), hp]
  · intro texts hp
    unfold batch_embed
    split
    · rfl
    · rw [hp]

/-- C5 (witness): the three clauses at concrete providers and batches. -/
theorem C5_witness :
    (batch_embed (fun _ : List (String × Option String) => some [[(1 : ℚ)]]) [] none = []) ∧
    (batch_embed (fun _ : List (String × Option String) => some [[(1 : ℚ)]]) ["a"] none
      = [[(1 : ℚ)]]) ∧
    (batch_embed (fun _ : List (String × Option String) => (none : Option (List (List ℚ))))
      ["a"] none = []) :=
  ⟨(C5_batch_embed (fun _ => some [[(1 : ℚ)]]) none).1,
    (C5_batch_embed (fun _ => some [[(1 : ℚ)]]) none).2.1 ["a"] [[(1 : ℚ)]]
      (by decide) rfl,
    (C5_batch_embed (fun _ => none) none).2.2 ["a"] rfl⟩

/-- C10: `batch_embed` builds exactly one request item per text — the request
list has the length of `texts` for every `titles` argument (absent, shorter, or
longer than `texts`) — and item `i` pairs `texts[i]` with `titles[i]` when
`i < len(titles)` and that title is non-empty (`title or None`), and with no
title otherwise; out-of-range positions never raise and never change the item
count. -/
theorem C10_titles_safe (texts : List String) (titles : Option (List String)) :
    ((buildContents (titles.getD []) 0 texts).length = texts.length) ∧
    (∀ i, (buildContents (titles.getD []) 0 texts).get? i = (texts.get? i).map fun t =>
      (t, if i < (titles.getD []).length ∧ (titles.getD []).getD i "" ≠ ""
          then some ((titles.getD []).getD i "") else none)) := by
  refine ⟨buildContents_length _ texts 0, ?_⟩
  intro i
  have := buildContents_get? (titles.getD []) texts 0 i
  simpa using this

/-! ### Lemmas about the modelled store and the ingestion pipeline -/

lemma any_id_eq (s : List StoredRecord) (j : String) :
    (s.any fun p => p.id == j) = true ↔ j ∈ storeIds s := by
  simp [storeIds, List.any_eq_true, List.mem_map]

lemma storeIds_upsertRecord (s : List StoredRecord) (r : StoredRecord) :
    storeIds (upsertRecord s r) =
      if r.id ∈ storeIds s then storeIds s else storeIds s ++ [r.id] := by
  unfold upsertRecord
  by_cases h : (s.any fun p => p.id == r.id) = true
  · rw [if_pos h, if_pos ((any_id_eq s r.id).mp h)]
    unfold storeIds
    rw [List.map_map]
    apply List.map_congr_left
    intro p hp
    by_cases hpr : p.id == r.id
    · simp only [Function.comp_apply, if_pos hpr]
      exact (beq_iff_eq.mp hpr).symm
    · simp only [Function.comp_apply, if_neg hpr]
  · rw [if_neg h, if_neg fun hc => h ((any_id_eq s r.id).mpr hc)]
    simp [storeIds]

lemma length_upsertRecord (s : List StoredRecord) (r : StoredRecord) :
    (upsertRecord s r).length =
      if r.id ∈ storeIds s then s.length else s.length + 1 := by
  unfold upsertRecord
  by_cases h : (s.any fun p => p.id == r.id) = true
  · rw [if_pos h, if_pos ((any_id_eq s r.id).mp h)]
    simp
  · rw [if_neg h, if_neg fun hc => h ((any_id_eq s r.id).mpr hc)]
    simp

lemma upsertAll_cons (s : List StoredRecord) (r : StoredRecord) (rest : List StoredRecord) :
    upsertAll s (r :: rest) = upsertAll (upsertRecord s r) rest := rfl

lemma upsertAll_append (s : List StoredRecord) (a b : List StoredRecord) :
    upsertAll s (a ++ b) = upsertAll (upsertAll s a) b := by
  unfold upsertAll
  rw [List.foldl_append]

lemma storeIds_upsertAll_mono :
    ∀ (recs : List StoredRecord) (s : List StoredRecord) (j : String),
      j ∈ storeIds s → j ∈ storeIds (upsertAll s recs) := by
  intro recs
  induction recs with
  | nil => intro s j h; exact h
  | cons r rest ih =>
    intro s j h
    rw [upsertAll_cons]
    apply ih
    rw [storeIds_upsertRecord]
    split
    · exact h
    · exact List.mem_append_left _ h

lemma mem_storeIds_upsertAll :
    ∀ (recs : List StoredRecord) (s : List StoredRecord) (r : StoredRecord),
      r ∈ recs → r.id ∈ storeIds (upsertAll s recs) := by
  intro recs
  induction recs with
  | nil => intro s r h; simp at h
  | cons q rest ih =>
    intro s r h
    rcases List.mem_cons.mp h with h | h
    · subst h
      rw [upsertAll_cons]
      apply storeIds_upsertAll_mono
      rw [storeIds_upsertRecord]
      split
      · assumption
      · exact List.mem_append_right _ (List.mem_cons_self _ _)
    · rw [upsertAll_cons]
      exact ih _ r h

/-- Upserting records whose ids are all already present changes neither the
record count nor the id set. -/
lemma upsertAll_preserves :
    ∀ (recs : List StoredRecord) (s : List StoredRecord),
      (∀ r ∈ recs, r.id ∈ storeIds s) →
      (upsertAll s recs).length = s.length ∧ storeIds (upsertAll s recs) = storeIds s := by
  intro recs
  induction recs with
  | nil => intro s _; exact ⟨rfl, rfl⟩
  | cons q rest ih =>
    intro s h
    have hq : q.id ∈ storeIds s := h q (List.mem_cons_self _ _)
    have hlen : (upsertRecord s q).length = s.length := by
      rw [length_upsertRecord, if_pos hq]
    have hids : storeIds (upsertRecord s q) = storeIds s := by
      rw [storeIds_upsertRecord, if_pos hq]
    have hrest := ih (upsertRecord s q) fun r hr => by
      rw [hids]
      exact h r (List.mem_cons_of_mem _ hr)
    rw [upsertAll_cons]
    exact ⟨by rw [hrest.1, hlen], by rw [hrest.2, hids]⟩

/-- One ingestion run is the upsert of the concatenated per-document records. -/
lemma processCorpusStore_eq
    (provider : List (List Char × Option String) → Option (List (List ℚ))) :
    ∀ (docs : List DocFile) (s : List StoredRecord),
      processCorpusStore provider docs s =
        upsertAll s ((docs.map (docRecords provider)).flatten) := by
  intro docs
  induction docs with
  | nil => intro s; rfl
  | cons d ds ih =>
    intro s
    show processCorpusStore provider ds (upsertAll s (docRecords provider d)) = _
    rw [ih, List.map_cons, List.flatten_cons, upsertAll_append]

/-- A failing provider makes every batch contribute nothing. -/
lemma processBatches_fail
    (provider : List (List Char × Option String) → Option (List (List ℚ)))
    (stem : String) (hp : ∀ req, provider req = none) :
    ∀ fuel i chunks, processBatches provider stem fuel i chunks = [] := by
  intro fuel
  induction fuel with
  | zero => intro i chunks; rfl
  | succ n ih =>
    intro i chunks
    simp only [processBatches]
    split
    · rfl
    · have hbe : batch_embed provider ((chunks.take batch_size).map Chunk.text)
          (some ((chunks.take batch_size).map Chunk.filename)) = [] := by
        unfold batch_embed
        split
        · rfl
        · rw [hp]
      rw [hbe]
      simp [ih]

/-- A document that cannot be read, or whose every embedding request fails,
contributes no records. -/
lemma docRecords_fail
    (provider : List (List Char × Option String) → Option (List (List ℚ)))
    (d : DocFile) (h : d.content = none ∨ ∀ req, provider req = none) :
    docRecords provider d = [] := by
  unfold docRecords
  rcases h with h | h
  · rw [h]
  · cases d.content with
    | none => rfl
    | some content =>
      simp only [processBatches_fail provider d.stem h]
      split <;> rfl

/-! ### Claim theorems about the ingestion pipeline and the store -/

/-- C4: re-running the ingestion pipeline over the same unchanged corpus with
the same provider produces the same records with identical ids (the model is a
deterministic function of corpus and provider), and handing them to the store a
second time leaves both the record count and the id set unchanged — ids collide
and overwrite, no duplicates. The store's `upsert` is modelled from the spec
(§4.3); see `upsertRecord`. -/
theorem C4_reingest_idempotent
    (provider : List (List Char × Option String) → Option (List (List ℚ)))
    (docs : List DocFile) (store : List StoredRecord) :
    (processCorpusStore provider docs (processCorpusStore provider docs store)).length =
      (processCorpusStore provider docs store).length ∧
    storeIds (processCorpusStore provider docs (processCorpusStore provider docs store)) =
      storeIds (processCorpusStore provider docs store) := by
  rw [processCorpusStore_eq, processCorpusStore_eq]
  have hall : ∀ r ∈ (docs.map (docRecords provider)).flatten,
      r.id ∈ storeIds (upsertAll store ((docs.map (docRecords provider)).flatten)) :=
    fun r hr => mem_storeIds_upsertAll _ store r hr
  exact upsertAll_preserves ((docs.map (docRecords provider)).flatten)
    (upsertAll store ((docs.map (docRecords provider)).flatten)) hall

/-- C9: a document whose read raises, or whose every embedding request fails,
is skipped without aborting the run — the aggregate counts
`(processed_files, total_chunks)` and the store effect over the remaining
corpus are exactly those of the corpus without that document. -/
theorem C9_per_document_failure
    (provider : List (List Char × Option String) → Option (List (List ℚ)))
    (d : DocFile) (docs : List DocFile) (store : List StoredRecord)
    (h : d.content = none ∨ ∀ req, provider req = none) :
    processCorpus provider (d :: docs) = processCorpus provider docs ∧
    processCorpusStore provider (d :: docs) store = processCorpusStore provider docs store := by
  have hd := docRecords_fail provider d h
  constructor
  · simp [processCorpus, hd]
  · show processCorpusStore provider docs (upsertAll store (docRecords provider d)) = _
    rw [hd]
    rfl

/-- C9 (witness): an unreadable file in front of a readable one leaves the
aggregate report of the rest unchanged (and the rest is genuinely processed:
the report is `(1, 1)`). -/
theorem C9_witness :
    processCorpus (fun req => some (req.map fun _ => [(1 : ℚ)]))
        [{ stem := "b", name := "b.md", content := none },
         { stem := "r", name := "r.md", content := some "hello" }] =
      processCorpus (fun req => some (req.map fun _ => [(1 : ℚ)]))
        [{ stem := "r", name := "r.md", content := some "hello" }] :=
  (C9_per_document_failure (fun req => some (req.map fun _ => [(1 : ℚ)]))
    { stem := "b", name := "b.md", content := none }
    [{ stem := "r", name := "r.md", content := some "hello" }] [] (Or.inl rfl)).1

end CPR
